/-
Verification of the `gotest` command-line tool (a Go test runner wrapper).

The development shallowly embeds the tool's pure logic:
  * string helpers mirroring the Go standard-library calls the tool makes
    (strings.Fields, strings.LastIndex, strings.Split, strings.TrimSpace,
    strings.HasPrefix/HasSuffix/Contains, strconv.Atoi, filepath.Dir,
    filepath.Clean, filepath.Join for single clean components);
  * the coverage-profile aggregation of displayCoverageStats;
  * the flag parsing of parseFlags;
  * the command-line construction and error flow of run/main;
  * the directory walk of findGoPackages over an explicit file-system tree.

Go's int is 64-bit: the statement counters are accumulated with wrapping
64-bit arithmetic (`wrap64`, an explicit mod-2^64 reduction), and
strconv.Atoi's 64-bit range check is modelled.  The coverage profile is
modelled as the list of lines delivered by the line scanner.
-/
import Mathlib

set_option maxRecDepth 4000

namespace Gotest

/-! ## String helpers mirroring Go standard-library functions -/

/-- Go `unicode.IsSpace`: the full Unicode White_Space set from Go's
`unicode.White_Space` table (U+0009-U+000D, U+0020, U+0085, U+00A0,
U+1680, U+2000-U+200A, U+2028, U+2029, U+202F, U+205F, U+3000), which
`strings.Fields` and `strings.TrimSpace` split and trim on. -/
def goIsSpace (c : Char) : Bool :=
  c = '\t' || c = '\n' || c = '\u000b' || c = '\u000c' || c = '\r' ||
  c = ' ' || c = '\u0085' || c = '\u00A0' || c = '\u1680' ||
  ('\u2000' ≤ c && c ≤ '\u200A') ||
  c = '\u2028' || c = '\u2029' || c = '\u202F' || c = '\u205F' || c = '\u3000'

/-- Does `pat` occur at the start of `l`?  (List-level prefix test.) -/
def prefixMatch : List Char → List Char → Bool
  | [], _ => true
  | _ :: _, [] => false
  | p :: ps, c :: cs => p = c && prefixMatch ps cs

/-- Does `pat` occur anywhere in `l`?  (Helper for Go `strings.Contains`.) -/
def substrAt (pat : List Char) : List Char → Bool
  | [] => prefixMatch pat []
  | c :: cs => prefixMatch pat (c :: cs) || substrAt pat cs

/-- Go `strings.Contains s pat`. -/
def containsSubstr (s pat : String) : Bool := substrAt pat.data s.data

/-- Go `strings.HasPrefix s pat`. -/
def strStartsWith (s pat : String) : Bool := prefixMatch pat.data s.data

/-- Go `strings.HasSuffix s pat`. -/
def strEndsWith (s pat : String) : Bool := prefixMatch pat.data.reverse s.data.reverse

/-- Drop the first `n` characters of `s` (Go slicing `s[n:]` on ASCII text). -/
def strDrop (s : String) (n : Nat) : String := String.mk (s.data.drop n)

/-- Go `strings.TrimSpace`. -/
def trimSpace (s : String) : String :=
  String.mk (((s.data.dropWhile goIsSpace).reverse.dropWhile goIsSpace).reverse)

/-- Split a character list at every occurrence of `sep` (Go `strings.Split`
with a one-character separator, at the `List Char` level). -/
def splitOnChar (sep : Char) : List Char → List (List Char)
  | [] => [[]]
  | c :: cs =>
    match splitOnChar sep cs with
    | [] => [[]]
    | h :: t => if c = sep then [] :: h :: t else (c :: h) :: t

/-- Join components with `sep` between them (inverse of `splitOnChar`). -/
def joinComps (sep : Char) : List (List Char) → List Char
  | [] => []
  | [c] => c
  | c :: c2 :: rest => c ++ sep :: joinComps sep (c2 :: rest)

/-- Go `strings.Fields` (split on runs of whitespace, no empty fields):
accumulator-based worker. -/
def fieldsAux : List Char → List Char → List (List Char)
  | [], acc => if acc.isEmpty then [] else [acc.reverse]
  | c :: cs, acc =>
    if goIsSpace c then
      if acc.isEmpty then fieldsAux cs [] else acc.reverse :: fieldsAux cs []
    else fieldsAux cs (c :: acc)

/-- Go `strings.Fields`. -/
def fields (s : String) : List String := (fieldsAux s.data []).map String.mk

/-- The text of `s` before the last colon, or `none` when `s` has no colon
(Go `s[:strings.LastIndex(s, ":")]` guarded by the `-1` check). -/
def beforeLastColon (s : String) : Option String :=
  if s.data.contains ':' then
    some (String.mk (((s.data.reverse.dropWhile (fun c => c ≠ ':')).drop 1).reverse))
  else none

/-- Go `strconv.Atoi`: optional sign, one or more decimal digits, 64-bit
signed range check. -/
def atoi? (s : String) : Option Int :=
  let core : Bool × List Char :=
    match s.data with
    | '+' :: r => (false, r)
    | '-' :: r => (true, r)
    | r => (false, r)
  let neg := core.1
  let ds := core.2
  if ds.isEmpty || !ds.all Char.isDigit then none
  else
    let mag : Int := Int.ofNat (ds.foldl (fun acc c => acc * 10 + (c.toNat - '0'.toNat)) 0)
    let v : Int := if neg then -mag else mag
    if v < -(2 ^ 63) || 2 ^ 63 - 1 < v then none else some v

/-! ## Lexical path handling: Go `path/filepath.Clean` and `filepath.Dir`

`filepath.Clean` is implemented by its documented component semantics:
split the path on `/`, then process components left to right on a stack
(`.` and empty components vanish; `..` pops a non-`..` component, is kept
when the path is relative and the stack is empty, and vanishes at the root
of an absolute path). -/

/-- One step of the `Clean` stack machine. -/
def cleanPush (rooted : Bool) (stack : List (List Char)) (comp : List Char) :
    List (List Char) :=
  if comp.isEmpty || comp = ['.'] then stack
  else if comp = ['.', '.'] then
    match stack with
    | [] => if rooted then [] else [['.', '.']]
    | top :: rest => if top = ['.', '.'] then comp :: top :: rest else rest
  else comp :: stack

/-- Go `filepath.Clean` (unix paths, no volume names) at the `List Char`
level. -/
def cleanPath (l : List Char) : List Char :=
  if l.isEmpty then ['.']
  else
    let rooted : Bool := l.head? = some '/'
    let stack := (splitOnChar '/' l).foldl (cleanPush rooted) []
    let body := joinComps '/' stack.reverse
    if rooted then
      if body.isEmpty then ['/'] else '/' :: body
    else
      if body.isEmpty then ['.'] else body

/-- Everything up to and including the last `/` of `l` (empty when `l`
has no slash); the prefix Go's `filepath.Dir` hands to `Clean`. -/
def upToLastSlash (l : List Char) : List Char :=
  (l.reverse.dropWhile (fun c => c ≠ '/')).reverse

/-- Go `filepath.Dir`. -/
def dirOf (s : String) : String := String.mk (cleanPath (upToLastSlash s.data))

/-- Go `filepath.Join parent name` for the walk's use case: `parent` is an
already-clean walked path and `name` a single clean component, so the join
is `parent ++ "/" ++ name`, with `Join(".", name) = name`. -/
def joinPath (p name : String) : String :=
  if p = "." then name else String.mk (p.data ++ '/' :: name.data)

/-! ## The coverage aggregation of `displayCoverageStats` -/

/-- Reduce an integer to the signed 64-bit value Go's wrapping `int`
arithmetic produces: the representative in `[-2^63, 2^63)` congruent
mod `2^64` (the numerals are `2^63` and `2^64`). -/
def wrap64 (x : Int) : Int :=
  (x + 9223372036854775808) % 18446744073709551616 - 9223372036854775808

/-- The signed 64-bit range `[-2^63, 2^63)` of a Go `int`. -/
def inRange64 (x : Int) : Prop :=
  -9223372036854775808 ≤ x ∧ x < 9223372036854775808

/-- Per-package coverage counters (source struct `CoverageStats`; the
fields hold 64-bit Go ints, so they always lie in `inRange64`). -/
structure CoverageStats where
  TotalStatements : Int
  CoveredStatements : Int
deriving DecidableEq

/-- The per-line counter update: `TotalStatements += numStatements` and,
when `count > 0`, `CoveredStatements += numStatements`, with Go's
wrapping 64-bit addition. -/
def bump (s : CoverageStats) (n c : Int) : CoverageStats :=
  { TotalStatements := wrap64 (s.TotalStatements + n)
    CoveredStatements :=
      if 0 < c then wrap64 (s.CoveredStatements + n) else s.CoveredStatements }

/-- The transient `map[string]*CoverageStats`, modelled as an association
list keyed by package path. -/
abbrev StatsMap := List (String × CoverageStats)

/-- Map lookup. -/
def lookupStats : StatsMap → String → Option CoverageStats
  | [], _ => none
  | (k', s) :: rest, k => if k' = k then some s else lookupStats rest k

/-- Map update for one profile line: create a zero entry when the key is
absent, then apply `bump` (exactly the source's nil-check plus `+=`). -/
def updateStats : StatsMap → String → Int → Int → StatsMap
  | [], k, n, c => [(k, bump ⟨0, 0⟩ n c)]
  | (k', s) :: rest, k, n, c =>
    if k' = k then (k', bump s n c) :: rest
    else (k', s) :: updateStats rest k n c

/-- Parse one profile line as the loop body of `displayCoverageStats` does:
skip `mode:` lines, require exactly three whitespace-separated fields, take
the file path before the last colon of the first field, key by its
directory, and require the last two fields to parse as integers.  Returns
`none` exactly when the loop `continue`s without touching the map. -/
def parseLine (line : String) : Option (String × Int × Int) :=
  if strStartsWith line "mode:" then none
  else
    match fields line with
    | [p0, p1, p2] =>
      match beforeLastColon p0 with
      | none => none
      | some filePath =>
        match atoi? p1, atoi? p2 with
        | some n, some c => some (dirOf filePath, n, c)
        | _, _ => none
    | _ => none

/-- Process one scanned line against the map. -/
def processLine (m : StatsMap) (line : String) : StatsMap :=
  match parseLine line with
  | none => m
  | some (pkg, n, c) => updateStats m pkg n c

/-- The aggregation loop of `displayCoverageStats` over the scanned lines
of the coverage profile. -/
def displayCoverageStats (lines : List String) : StatsMap :=
  lines.foldl processLine []

/-- `TotalStatements` recorded for package `k` (0 when `k` is absent, as
for Go's zero-valued map entries). -/
def statsTotalOf (m : StatsMap) (k : String) : Int :=
  ((lookupStats m k).getD ⟨0, 0⟩).TotalStatements

/-- `CoveredStatements` recorded for package `k`. -/
def statsCoveredOf (m : StatsMap) (k : String) : Int :=
  ((lookupStats m k).getD ⟨0, 0⟩).CoveredStatements

/-- The well-formed (non-skipped) entries of a profile, in order. -/
def wellFormedEntries (lines : List String) : List (String × Int × Int) :=
  lines.filterMap parseLine

/-- Sum of the statement-count field over the well-formed lines attributed
to package `k` (the specification's reading of `TotalStatements`). -/
def claimTotal (lines : List String) (k : String) : Int :=
  (((wellFormedEntries lines).filter (fun e => decide (e.1 = k))).map (fun e => e.2.1)).sum

/-- Sum of the statement-count field over the well-formed lines of package
`k` whose execution count is positive (the specification's reading of
`CoveredStatements`). -/
def claimCovered (lines : List String) (k : String) : Int :=
  (((wellFormedEntries lines).filter
      (fun e => decide (e.1 = k) && decide (0 < e.2.2))).map (fun e => e.2.1)).sum

/-- Contribution of a single line to package `k`'s total. -/
def lineTotalFor (k : String) (l : String) : Int :=
  match parseLine l with
  | some e => if e.1 = k then e.2.1 else 0
  | none => 0

/-- Contribution of a single line to package `k`'s covered count. -/
def lineCoveredFor (k : String) (l : String) : Int :=
  match parseLine l with
  | some e => if e.1 = k ∧ 0 < e.2.2 then e.2.1 else 0
  | none => 0

/-! ### Lemmas about the aggregation -/

theorem lookupStats_updateStats (m : StatsMap) (k k' : String) (n c : Int) :
    lookupStats (updateStats m k n c) k' =
      if k' = k then some (bump ((lookupStats m k).getD ⟨0, 0⟩) n c)
      else lookupStats m k' := by
  induction m with
  | nil =>
    simp only [updateStats, lookupStats, Option.getD_none]
    by_cases h : k = k'
    · subst h; simp
    · rw [if_neg h, if_neg (fun hh => h hh.symm)]
  | cons e rest ih =>
    obtain ⟨k'', s⟩ := e
    simp only [updateStats]
    by_cases h1 : k'' = k
    · subst h1
      rw [if_pos rfl]
      simp only [lookupStats, if_pos rfl]
      by_cases h2 : k'' = k'
      · subst h2; simp [lookupStats]
      · rw [if_neg h2]
        simp only [lookupStats, if_neg h2]
        rw [if_neg (fun hh => h2 (by rw [hh]))]
    · rw [if_neg h1]
      simp only [lookupStats]
      by_cases h2 : k'' = k'
      · subst h2
        rw [if_pos rfl, if_neg (fun hh : k'' = k => h1 hh), if_pos rfl]
      · rw [if_neg h2, if_neg h2, ih]
        rw [if_neg (fun hh : k'' = k => h1 hh)]

theorem wrap64_inRange (x : Int) : inRange64 (wrap64 x) := by
  unfold wrap64 inRange64
  omega

theorem wrap64_eq_self {x : Int} (h : inRange64 x) : wrap64 x = x := by
  unfold wrap64
  unfold inRange64 at h
  omega

theorem wrap64_add_left (x y : Int) : wrap64 (wrap64 x + y) = wrap64 (x + y) := by
  unfold wrap64
  omega

theorem statsTotalOf_updateStats (m : StatsMap) (k k' : String) (n c : Int) :
    statsTotalOf (updateStats m k n c) k' =
      if k' = k then wrap64 (statsTotalOf m k' + n) else statsTotalOf m k' := by
  unfold statsTotalOf
  rw [lookupStats_updateStats]
  by_cases h : k' = k
  · subst h; simp [bump]
  · simp [h]

theorem statsCoveredOf_updateStats (m : StatsMap) (k k' : String) (n c : Int) :
    statsCoveredOf (updateStats m k n c) k' =
      if k' = k ∧ 0 < c then wrap64 (statsCoveredOf m k' + n)
      else statsCoveredOf m k' := by
  unfold statsCoveredOf
  rw [lookupStats_updateStats]
  by_cases h : k' = k
  · subst h
    by_cases hc : 0 < c <;> simp [bump, hc]
  · simp [h]

theorem statsTotalOf_processLine (m : StatsMap) (l : String) (k : String)
    (hm : inRange64 (statsTotalOf m k)) :
    statsTotalOf (processLine m l) k = wrap64 (statsTotalOf m k + lineTotalFor k l) := by
  unfold processLine lineTotalFor
  cases h : parseLine l with
  | none => simp [wrap64_eq_self hm]
  | some e =>
    obtain ⟨p, n, c⟩ := e
    simp only
    rw [statsTotalOf_updateStats]
    by_cases hk : k = p
    · subst hk; simp
    · rw [if_neg hk, if_neg (fun hh : p = k => hk hh.symm)]
      simp [wrap64_eq_self hm]

theorem statsCoveredOf_processLine (m : StatsMap) (l : String) (k : String)
    (hm : inRange64 (statsCoveredOf m k)) :
    statsCoveredOf (processLine m l) k =
      wrap64 (statsCoveredOf m k + lineCoveredFor k l) := by
  unfold processLine lineCoveredFor
  cases h : parseLine l with
  | none => simp [wrap64_eq_self hm]
  | some e =>
    obtain ⟨p, n, c⟩ := e
    simp only
    rw [statsCoveredOf_updateStats]
    by_cases hk : k = p
    · subst hk
      by_cases hc : 0 < c
      · rw [if_pos ⟨rfl, hc⟩, if_pos ⟨rfl, hc⟩]
      · rw [if_neg (fun hh => hc hh.2), if_neg (fun hh => hc hh.2)]
        simp [wrap64_eq_self hm]
    · rw [if_neg (fun hh => hk hh.1), if_neg (fun hh : p = k ∧ 0 < c => hk hh.1.symm)]
      simp [wrap64_eq_self hm]

theorem statsTotalOf_foldl (ls : List String) (m : StatsMap) (k : String)
    (hm : inRange64 (statsTotalOf m k)) :
    statsTotalOf (ls.foldl processLine m) k =
      wrap64 (statsTotalOf m k + (ls.map (lineTotalFor k)).sum) := by
  induction ls generalizing m with
  | nil => simpa using (wrap64_eq_self hm).symm
  | cons l ls ih =>
    rw [List.foldl_cons, List.map_cons, List.sum_cons]
    have hrange : inRange64 (statsTotalOf (processLine m l) k) := by
      rw [statsTotalOf_processLine m l k hm]
      exact wrap64_inRange _
    rw [ih _ hrange, statsTotalOf_processLine m l k hm, wrap64_add_left]
    congr 1
    ring

theorem statsCoveredOf_foldl (ls : List String) (m : StatsMap) (k : String)
    (hm : inRange64 (statsCoveredOf m k)) :
    statsCoveredOf (ls.foldl processLine m) k =
      wrap64 (statsCoveredOf m k + (ls.map (lineCoveredFor k)).sum) := by
  induction ls generalizing m with
  | nil => simpa using (wrap64_eq_self hm).symm
  | cons l ls ih =>
    rw [List.foldl_cons, List.map_cons, List.sum_cons]
    have hrange : inRange64 (statsCoveredOf (processLine m l) k) := by
      rw [statsCoveredOf_processLine m l k hm]
      exact wrap64_inRange _
    rw [ih _ hrange, statsCoveredOf_processLine m l k hm, wrap64_add_left]
    congr 1
    ring

theorem claimTotal_eq_sum_map (lines : List String) (k : String) :
    claimTotal lines k = (lines.map (lineTotalFor k)).sum := by
  induction lines with
  | nil => rfl
  | cons l ls ih =>
    unfold claimTotal wellFormedEntries at ih ⊢
    rw [List.filterMap_cons, List.map_cons, List.sum_cons]
    cases h : parseLine l with
    | none =>
      simp only [lineTotalFor, h]
      rw [ih]; ring
    | some e =>
      obtain ⟨p, n, c⟩ := e
      rw [List.filter_cons]
      simp only [lineTotalFor, h]
      by_cases hk : p = k
      · rw [if_pos (by simp [hk]), List.map_cons, List.sum_cons, ih, if_pos hk]
      · rw [if_neg (by simp [hk]), ih, if_neg hk]; ring

theorem claimCovered_eq_sum_map (lines : List String) (k : String) :
    claimCovered lines k = (lines.map (lineCoveredFor k)).sum := by
  induction lines with
  | nil => rfl
  | cons l ls ih =>
    unfold claimCovered wellFormedEntries at ih ⊢
    rw [List.filterMap_cons, List.map_cons, List.sum_cons]
    cases h : parseLine l with
    | none =>
      simp only [lineCoveredFor, h]
      rw [ih]; ring
    | some e =>
      obtain ⟨p, n, c⟩ := e
      rw [List.filter_cons]
      simp only [lineCoveredFor, h]
      by_cases hk : p = k ∧ 0 < c
      · rw [if_pos (by simp [hk.1, hk.2]), List.map_cons, List.sum_cons, ih, if_pos hk]
      · rw [if_neg (by simpa using hk), ih, if_neg hk]; ring

theorem statsTotalOf_nil_inRange (k : String) :
    inRange64 (statsTotalOf ([] : StatsMap) k) := by
  show inRange64 0
  unfold inRange64
  omega

theorem statsCoveredOf_nil_inRange (k : String) :
    inRange64 (statsCoveredOf ([] : StatsMap) k) := by
  show inRange64 0
  unfold inRange64
  omega

theorem displayCoverageStats_total_wrap (lines : List String) (k : String) :
    statsTotalOf (displayCoverageStats lines) k = wrap64 (claimTotal lines k) := by
  rw [displayCoverageStats, statsTotalOf_foldl lines [] k (statsTotalOf_nil_inRange k),
    claimTotal_eq_sum_map]
  congr 1
  show (0 : Int) + _ = _
  ring

theorem displayCoverageStats_covered_wrap (lines : List String) (k : String) :
    statsCoveredOf (displayCoverageStats lines) k = wrap64 (claimCovered lines k) := by
  rw [displayCoverageStats, statsCoveredOf_foldl lines [] k (statsCoveredOf_nil_inRange k),
    claimCovered_eq_sum_map]
  congr 1
  show (0 : Int) + _ = _
  ring

/-- A profile whose two statement counts of `2^62` overflow the 64-bit
counters of the program (used against C1 and C9). -/
def wrapEx : List String :=
  ["a/f.go:1.1,2.2 4611686018427387904 1", "a/f.go:3.3,4.4 4611686018427387904 1"]

/-- C1 counterexample: at `wrapEx` the program's wrapping 64-bit
`TotalStatements` for package `a` is `-2^63`, while the claimed
mathematical sum of the statement-count fields is `2^63`; the claim as
stated is false at this profile. -/
theorem displayCoverageStats_totals_counterexample :
    statsTotalOf (displayCoverageStats wrapEx) "a" = -9223372036854775808 ∧
    claimTotal wrapEx "a" = 9223372036854775808 ∧
    ¬ statsTotalOf (displayCoverageStats wrapEx) "a" = claimTotal wrapEx "a" :=
  ⟨by decide, by decide, by decide⟩

/-- C1 amended: with Go's wrapping 64-bit counters, each package's
`TotalStatements` is the 64-bit wrap of the sum of the statement-count
field over the package's well-formed lines, and `CoveredStatements` is
the 64-bit wrap of the sum over exactly those of its well-formed lines
whose execution-count field is positive. -/
theorem displayCoverageStats_totals (lines : List String) (k : String) :
    statsTotalOf (displayCoverageStats lines) k = wrap64 (claimTotal lines k) ∧
    statsCoveredOf (displayCoverageStats lines) k = wrap64 (claimCovered lines k) :=
  ⟨displayCoverageStats_total_wrap lines k, displayCoverageStats_covered_wrap lines k⟩

/-! ### The covered-within-total invariant (C9) -/

/-- The invariant on the statistics map: every recorded counter pair has
`0 ≤ CoveredStatements ≤ TotalStatements`. -/
def statsInv (m : StatsMap) : Prop :=
  ∀ k s, lookupStats m k = some s →
    0 ≤ s.CoveredStatements ∧ s.CoveredStatements ≤ s.TotalStatements

theorem bump_inv {s : CoverageStats} {n : Int} (c : Int)
    (h1 : 0 ≤ s.CoveredStatements) (h2 : s.CoveredStatements ≤ s.TotalStatements)
    (hn : 0 ≤ n) (hb : s.TotalStatements + n < 9223372036854775808) :
    0 ≤ (bump s n c).CoveredStatements ∧
      (bump s n c).CoveredStatements ≤ (bump s n c).TotalStatements := by
  unfold bump
  have hw1 : wrap64 (s.TotalStatements + n) = s.TotalStatements + n :=
    wrap64_eq_self ⟨by omega, hb⟩
  have hw2 : wrap64 (s.CoveredStatements + n) = s.CoveredStatements + n :=
    wrap64_eq_self ⟨by omega, by omega⟩
  by_cases hc : 0 < c <;> simp [hc, hw1, hw2] <;> omega

theorem statsInv_updateStats {m : StatsMap} (k : String) {n : Int} (c : Int)
    (h : statsInv m) (hn : 0 ≤ n)
    (hb : statsTotalOf m k + n < 9223372036854775808) :
    statsInv (updateStats m k n c) := by
  intro k' s hs
  rw [lookupStats_updateStats] at hs
  by_cases hk : k' = k
  · rw [if_pos hk] at hs
    subst hk
    have hold : 0 ≤ ((lookupStats m k').getD ⟨0, 0⟩).CoveredStatements ∧
        ((lookupStats m k').getD ⟨0, 0⟩).CoveredStatements ≤
          ((lookupStats m k').getD ⟨0, 0⟩).TotalStatements := by
      cases hm : lookupStats m k' with
      | none => simp
      | some s0 => simpa using h k' s0 hm
    obtain rfl := (Option.some.inj hs).symm
    exact bump_inv c hold.1 hold.2 hn hb
  · rw [if_neg hk] at hs
    exact h k' s hs

theorem statsInv_processLine (m : StatsMap) (l : String)
    (h : statsInv m)
    (hl : ∀ p n c, parseLine l = some (p, n, c) →
      0 ≤ n ∧ statsTotalOf m p + n < 9223372036854775808) :
    statsInv (processLine m l) := by
  unfold processLine
  cases hp : parseLine l with
  | none => exact h
  | some e =>
    obtain ⟨p, n, c⟩ := e
    exact statsInv_updateStats p c h (hl p n c hp).1 (hl p n c hp).2

/-- Boolean form of the non-negative-statement-count hypothesis. -/
def nonnegCounts (lines : List String) : Bool :=
  lines.all fun l =>
    match parseLine l with
    | some e => decide (0 ≤ e.2.1)
    | none => true

theorem nonnegCounts_mem {lines : List String} (h : nonnegCounts lines = true)
    {l : String} (hl : l ∈ lines) :
    ∀ p n c, parseLine l = some (p, n, c) → 0 ≤ n := by
  intro p n c hp
  have hall := (List.all_eq_true.mp h) l hl
  rw [hp] at hall
  simpa using hall

theorem wf_entry_nonneg {lines : List String} (h : nonnegCounts lines = true) :
    ∀ e ∈ wellFormedEntries lines, (0 : Int) ≤ e.2.1 := by
  intro e he
  obtain ⟨l, hl, hp⟩ := List.mem_filterMap.mp he
  exact nonnegCounts_mem h hl e.1 e.2.1 e.2.2 hp

theorem claimTotal_nonneg {lines : List String} {k : String}
    (h : nonnegCounts lines = true) : 0 ≤ claimTotal lines k := by
  unfold claimTotal
  apply List.sum_nonneg
  intro x hx
  obtain ⟨e, he, rfl⟩ := List.mem_map.mp hx
  exact wf_entry_nonneg h e (List.mem_of_mem_filter he)

theorem claimCovered_nonneg {lines : List String} {k : String}
    (h : nonnegCounts lines = true) : 0 ≤ claimCovered lines k := by
  unfold claimCovered
  apply List.sum_nonneg
  intro x hx
  obtain ⟨e, he, rfl⟩ := List.mem_map.mp hx
  exact wf_entry_nonneg h e (List.mem_of_mem_filter he)

theorem filter_and_sublist {α : Type} (p q : α → Bool) :
    ∀ l : List α, (l.filter fun a => p a && q a).Sublist (l.filter p)
  | [] => List.Sublist.refl _
  | a :: l => by
    rw [List.filter_cons, List.filter_cons]
    by_cases hp : p a = true
    · by_cases hq : q a = true
      · rw [if_pos (by simp [hp, hq]), if_pos hp]
        exact (filter_and_sublist p q l).cons₂ a
      · rw [if_neg (by simp [hp, hq]), if_pos hp]
        exact (filter_and_sublist p q l).cons a
    · rw [if_neg (by simp [hp]), if_neg hp]
      exact filter_and_sublist p q l

theorem claimTotal_le_sum {lines : List String} {k : String}
    (h : nonnegCounts lines = true) :
    claimTotal lines k ≤ ((wellFormedEntries lines).map (fun e => e.2.1)).sum := by
  unfold claimTotal
  apply List.Sublist.sum_le_sum
  · exact (List.filter_sublist _).map _
  · intro x hx
    obtain ⟨e, he, rfl⟩ := List.mem_map.mp hx
    exact wf_entry_nonneg h e he

theorem claimCovered_le_claimTotal {lines : List String} {k : String}
    (h : nonnegCounts lines = true) :
    claimCovered lines k ≤ claimTotal lines k := by
  unfold claimCovered claimTotal
  apply List.Sublist.sum_le_sum
  · exact (filter_and_sublist _ _ _).map _
  · intro x hx
    obtain ⟨e, he, rfl⟩ := List.mem_map.mp hx
    exact wf_entry_nonneg h e (List.mem_of_mem_filter he)

/-- C9 counterexample: the profile `wrapEx` satisfies the claim's
non-negativity hypothesis, yet the program's wrapped counters for package
`a` are `-2^63`, violating `0 ≤ CoveredStatements`; the claim as stated is
false at this profile. -/
theorem coverage_counters_invariant_counterexample :
    ¬ (nonnegCounts wrapEx = true →
       ∀ k s, lookupStats (displayCoverageStats wrapEx) k = some s →
         0 ≤ s.CoveredStatements ∧ s.CoveredStatements ≤ s.TotalStatements) := by
  intro hclaim
  have h := hclaim (by decide) "a"
    ⟨-9223372036854775808, -9223372036854775808⟩ (by decide)
  exact absurd h.1 (by decide)

/-- C9 amended: with wrapping 64-bit counters, after processing a profile
whose parsed statement counts are all non-negative and whose well-formed
statement counts sum to less than `2^63` (so no addition overflows),
every package's counter pair satisfies
`0 ≤ CoveredStatements ≤ TotalStatements`; and the invariant is preserved
by the processing of each individual line whose addition stays below
`2^63`. -/
theorem coverage_counters_invariant (lines : List String)
    (h : nonnegCounts lines = true)
    (hbound : ((wellFormedEntries lines).map (fun e => e.2.1)).sum
      < 9223372036854775808) :
    (∀ k s, lookupStats (displayCoverageStats lines) k = some s →
        0 ≤ s.CoveredStatements ∧ s.CoveredStatements ≤ s.TotalStatements) ∧
    (∀ m l, statsInv m →
        (∀ p n c, parseLine l = some (p, n, c) →
          0 ≤ n ∧ statsTotalOf m p + n < 9223372036854775808) →
        statsInv (processLine m l)) := by
  constructor
  · intro k s hs
    have h0T := claimTotal_nonneg (k := k) h
    have h0C := claimCovered_nonneg (k := k) h
    have hCT := claimCovered_le_claimTotal (k := k) h
    have hTS := claimTotal_le_sum (k := k) h
    have hT : s.TotalStatements = wrap64 (claimTotal lines k) := by
      have hw := displayCoverageStats_total_wrap lines k
      unfold statsTotalOf at hw
      rw [hs] at hw
      simpa using hw
    have hC : s.CoveredStatements = wrap64 (claimCovered lines k) := by
      have hw := displayCoverageStats_covered_wrap lines k
      unfold statsCoveredOf at hw
      rw [hs] at hw
      simpa using hw
    rw [hT, hC, wrap64_eq_self ⟨by omega, by omega⟩,
      wrap64_eq_self ⟨by omega, by omega⟩]
    exact ⟨h0C, hCT⟩
  · intro m l hm hl
    exact statsInv_processLine m l hm hl

/-- A small concrete profile used by the witnesses. -/
def covEx : List String :=
  ["mode: atomic", "pkg/a/f.go:1.1,2.2 3 1", "pkg/a/f.go:3.1,4.4 2 0"]

/-- Witness for C9 at a concrete profile. -/
theorem coverage_counters_invariant_witness :
    (nonnegCounts covEx = true ∧
     ((wellFormedEntries covEx).map (fun e => e.2.1)).sum < 9223372036854775808) ∧
    ((∀ k s, lookupStats (displayCoverageStats covEx) k = some s →
        0 ≤ s.CoveredStatements ∧ s.CoveredStatements ≤ s.TotalStatements) ∧
     (∀ m l, statsInv m →
        (∀ p n c, parseLine l = some (p, n, c) →
          0 ≤ n ∧ statsTotalOf m p + n < 9223372036854775808) →
        statsInv (processLine m l))) :=
  ⟨⟨by decide, by decide⟩,
    coverage_counters_invariant covEx (by decide) (by decide)⟩

/-! ### Malformed lines are skipped (C10) -/

/-- The claim's description of a malformed profile line: a `mode:` header,
a wrong field count, a first field without a colon, or a non-integer
second or third field. -/
def malformedLine (line : String) : Bool :=
  strStartsWith line "mode:" ||
  decide ((fields line).length ≠ 3) ||
  (match fields line with
   | [p0, _, _] => !(p0.data.contains ':')
   | _ => true) ||
  (match fields line with
   | [_, p1, p2] => (atoi? p1).isNone || (atoi? p2).isNone
   | _ => true)

theorem parseLine_eq_none_of_malformed {line : String}
    (h : malformedLine line = true) : parseLine line = none := by
  unfold parseLine
  by_cases hm : strStartsWith line "mode:" = true
  · rw [if_pos hm]
  · rw [if_neg hm]
    unfold malformedLine at h
    rw [Bool.not_eq_true] at hm
    rw [hm, Bool.false_or] at h
    cases hf : fields line with
    | nil => rfl
    | cons p0 t =>
      cases t with
      | nil => rfl
      | cons p1 t2 =>
        cases t2 with
        | nil => rfl
        | cons p2 t3 =>
          cases t3 with
          | cons p3 t4 => rfl
          | nil =>
            rw [hf] at h
            dsimp only at h
            simp only [Bool.or_eq_true, decide_eq_true_eq] at h
            rcases h with (h | h) | h
            · simp at h
            · rw [Bool.not_eq_true'] at h
              have hb : beforeLastColon p0 = none := by
                unfold beforeLastColon
                rw [if_neg (by rw [h]; exact Bool.false_ne_true)]
              dsimp only
              rw [hb]
            · dsimp only
              cases hb : beforeLastColon p0 with
              | none => rfl
              | some fp =>
                rcases h with h | h
                · cases ha : atoi? p1 with
                  | none => rfl
                  | some v => rw [ha] at h; simp at h
                · cases ha : atoi? p1 with
                  | none => rfl
                  | some v =>
                    cases ha2 : atoi? p2 with
                    | none => rfl
                    | some v2 => rw [ha2] at h; simp at h

/-- C10: a `mode:` line, a line without exactly three fields, a first
field without a colon, or a non-integer count field is skipped: it leaves
every package's counters unchanged and never produces an error (inserting
it anywhere in a profile does not change the computed map at all). -/
theorem malformed_lines_skipped (line : String) (h : malformedLine line = true) :
    (∀ m, processLine m line = m) ∧
    (∀ ls1 ls2, displayCoverageStats (ls1 ++ line :: ls2) =
        displayCoverageStats (ls1 ++ ls2)) := by
  have hnone := parseLine_eq_none_of_malformed h
  constructor
  · intro m
    unfold processLine
    rw [hnone]
  · intro ls1 ls2
    unfold displayCoverageStats
    rw [List.foldl_append, List.foldl_append, List.foldl_cons]
    congr 1
    unfold processLine
    rw [hnone]

/-- Witness for C10 at a concrete malformed line. -/
theorem malformed_lines_skipped_witness :
    malformedLine "mode: atomic" = true ∧
    ((∀ m, processLine m "mode: atomic" = m) ∧
     (∀ ls1 ls2, displayCoverageStats (ls1 ++ "mode: atomic" :: ls2) =
        displayCoverageStats (ls1 ++ ls2))) :=
  ⟨by decide, malformed_lines_skipped _ (by decide)⟩

/-! ### Package attribution by file directory (C5) -/

/-- The file path of a well-formed line: the text of its first field
before the last colon. -/
def lineFilePath (line : String) : Option String :=
  match fields line with
  | [p0, _, _] => beforeLastColon p0
  | _ => none

theorem parseLine_filePath {line p : String} {n c : Int}
    (h : parseLine line = some (p, n, c)) :
    ∃ f, lineFilePath line = some f ∧ p = dirOf f := by
  unfold parseLine at h
  by_cases hm : strStartsWith line "mode:" = true
  · rw [if_pos hm] at h
    exact absurd h (by simp)
  · rw [if_neg hm] at h
    unfold lineFilePath
    cases hf : fields line with
    | nil => rw [hf] at h; exact absurd h (by simp)
    | cons p0 t =>
      cases t with
      | nil => rw [hf] at h; exact absurd h (by simp)
      | cons p1 t2 =>
        cases t2 with
        | nil => rw [hf] at h; exact absurd h (by simp)
        | cons p2 t3 =>
          cases t3 with
          | cons p3 t4 => rw [hf] at h; exact absurd h (by simp)
          | nil =>
            rw [hf] at h
            dsimp only at h
            cases hb : beforeLastColon p0 with
            | none => rw [hb] at h; exact absurd h (by simp)
            | some fp =>
              rw [hb] at h
              cases ha : atoi? p1 with
              | none => rw [ha] at h; exact absurd h (by simp)
              | some v =>
                cases ha2 : atoi? p2 with
                | none => rw [ha, ha2] at h; exact absurd h (by simp)
                | some v2 =>
                  rw [ha, ha2] at h
                  simp only [Option.some.injEq] at h
                  refine ⟨fp, ?_, (congrArg Prod.fst h).symm⟩
                  dsimp only
                  rw [hb]

/-- C5: every well-formed line is attributed to the directory of the file
path taken from its first field (text before the last colon), so two
well-formed lines share a package key exactly when their files share a
directory. -/
theorem line_attribution (l1 l2 p1 p2 : String) (n1 c1 n2 c2 : Int)
    (h1 : parseLine l1 = some (p1, n1, c1)) (h2 : parseLine l2 = some (p2, n2, c2)) :
    (∃ f1, lineFilePath l1 = some f1 ∧ p1 = dirOf f1) ∧
    (∃ f2, lineFilePath l2 = some f2 ∧ p2 = dirOf f2) ∧
    (∀ f1 f2, lineFilePath l1 = some f1 → lineFilePath l2 = some f2 →
      (p1 = p2 ↔ dirOf f1 = dirOf f2)) := by
  obtain ⟨f1, hf1, hp1⟩ := parseLine_filePath h1
  obtain ⟨f2, hf2, hp2⟩ := parseLine_filePath h2
  refine ⟨⟨f1, hf1, hp1⟩, ⟨f2, hf2, hp2⟩, ?_⟩
  intro g1 g2 hg1 hg2
  rw [hf1] at hg1
  rw [hf2] at hg2
  obtain rfl := Option.some.inj hg1
  obtain rfl := Option.some.inj hg2
  rw [hp1, hp2]

/-- First example line for the C5 witness. -/
def lineEx1 : String := "github.com/u/p/file.go:10.2,12.16 3 1"

/-- Second example line for the C5 witness. -/
def lineEx2 : String := "github.com/u/q/other.go:1.1,2.2 2 0"

/-- Witness for C5 at two concrete lines. -/
theorem line_attribution_witness :
    parseLine lineEx1 = some ("github.com/u/p", 3, 1) ∧
    parseLine lineEx2 = some ("github.com/u/q", 2, 0) ∧
    ((∃ f1, lineFilePath lineEx1 = some f1 ∧ "github.com/u/p" = dirOf f1) ∧
     (∃ f2, lineFilePath lineEx2 = some f2 ∧ "github.com/u/q" = dirOf f2) ∧
     (∀ f1 f2, lineFilePath lineEx1 = some f1 → lineFilePath lineEx2 = some f2 →
       ("github.com/u/p" = "github.com/u/q" ↔ dirOf f1 = dirOf f2))) :=
  ⟨by decide, by decide,
    line_attribution lineEx1 lineEx2 _ _ 3 1 2 0 (by decide) (by decide)⟩

/-! ## The `go test` command line built by `run` (C4) -/

/-- The fixed coverage-profile path (`coverProfile` in `run`). -/
def coverProfilePath : String := "/tmp/cover.out"

/-- The argument list handed to the `go` binary, assembled exactly as
`run` does: `test`, the two coverage flags, the user's pass-through
arguments, then every discovered package. -/
def goTestCmdArgs (userArgs packages : List String) : List String :=
  ((["test"] ++ ["-coverprofile=" ++ coverProfilePath, "-covermode=atomic"]) ++ userArgs)
    ++ packages

/-- `run` only invokes the test runner when at least one package was
discovered (it returns early on an empty package list). -/
def testInvocation (userArgs packages : List String) : Option (List String) :=
  if packages.isEmpty then none else some (goTestCmdArgs userArgs packages)

/-- C4: with at least one discovered package, the test-runner command line
is exactly `test -coverprofile=/tmp/cover.out -covermode=atomic`, then the
user's pass-through arguments in order, then every discovered package; the
coverage output path is the fixed `/tmp/cover.out`. -/
theorem test_command_line (userArgs packages : List String) (h : packages ≠ []) :
    testInvocation userArgs packages =
      some ((["test", "-coverprofile=" ++ coverProfilePath, "-covermode=atomic"]
        ++ userArgs) ++ packages) ∧
    coverProfilePath = "/tmp/cover.out" := by
  constructor
  · unfold testInvocation
    rw [if_neg (by simpa using h)]
    simp [goTestCmdArgs]
  · rfl

/-- Witness for C4 at a concrete invocation. -/
theorem test_command_line_witness :
    (["./."] : List String) ≠ [] ∧
    (testInvocation ["-run", "TestFoo"] ["./."] =
      some ((["test", "-coverprofile=" ++ coverProfilePath, "-covermode=atomic"]
        ++ ["-run", "TestFoo"]) ++ ["./."]) ∧
     coverProfilePath = "/tmp/cover.out") :=
  ⟨by decide, test_command_line ["-run", "TestFoo"] ["./."] (by decide)⟩

/-! ## The error flow of `run` and `main` (C2)

`runModel` mirrors `run`'s control flow over the outcomes of its external
operations.  `testRunOk` (the test runner's exit) and `parseOk` (the
result of `displayCoverageStats`) are part of the environment but do not
appear in the control flow: the source only prints "Tests failed" (and the
buffered output) on a test failure and only prints a warning on a parse
failure, then continues. -/

/-- Outcomes of the external operations `run` performs, in order. -/
structure RunEnv where
  findResult : Except String (List String)
  testRunOk : Bool
  coverFileExists : Bool
  parseOk : Bool
  htmlGenOk : Bool
  browserOk : Bool

/-- The `error` result of `run`, line by line from the source: a find
error is wrapped and returned; an empty package list returns `nil` early;
a missing coverage profile, a failed HTML generation and a failed browser
launch are returned as errors; a test failure and a parse failure are only
reported, never returned. -/
def runModel (env : RunEnv) : Except String Unit :=
  match env.findResult with
  | .error e => .error ("finding go packages: " ++ e)
  | .ok packages =>
    if packages.isEmpty then .ok ()
    else if !env.coverFileExists then
      .error ("coverage profile not generated at " ++ coverProfilePath)
    else if !env.htmlGenOk then .error "generating coverage HTML"
    else if !env.browserOk then .error "opening browser"
    else .ok ()

/-- `main` exits 1 exactly when `run` returns an error. -/
def mainExitCode (env : RunEnv) : Nat :=
  match runModel env with
  | .error _ => 1
  | .ok _ => 0

/-- C2 as stated is false: an environment where only the test runner
fails (packages were found, the profile exists, HTML generation and the
browser succeed) makes `run` return `nil` and the process exit 0. -/
theorem run_swallows_failures :
    ¬ (∀ env : RunEnv,
        ((∃ e, env.findResult = Except.error e) ∨ env.testRunOk = false ∨
          env.parseOk = false ∨ env.htmlGenOk = false ∨ env.browserOk = false) →
        mainExitCode env ≠ 0) := by
  intro hclaim
  exact hclaim ⟨Except.ok ["./."], false, true, true, true, true⟩
    (Or.inr (Or.inl rfl)) (by decide)

/-- C2 amended: exactly the failures of package discovery, of the
coverage-profile file existing, of HTML-report generation and of browser
opening are propagated (the find error with its wrapping prefix) and make
the process exit non-zero; a test-runner failure or a coverage-parse
failure is reported to the user but never causes a non-zero exit by
itself. -/
theorem run_error_propagation (env : RunEnv) :
    (mainExitCode env ≠ 0 ↔ (∃ msg, runModel env = .error msg)) ∧
    ((∃ msg, runModel env = .error msg) ↔
      ((∃ e, env.findResult = Except.error e) ∨
       (∃ pkgs, env.findResult = Except.ok pkgs ∧ pkgs ≠ [] ∧
         (env.coverFileExists = false ∨ env.htmlGenOk = false ∨
          env.browserOk = false)))) ∧
    (∀ e, env.findResult = Except.error e →
        runModel env = .error ("finding go packages: " ++ e)) := by
  obtain ⟨fr, t, cov, par, html, br⟩ := env
  refine ⟨?_, ?_, ?_⟩
  · unfold mainExitCode
    cases h : runModel ⟨fr, t, cov, par, html, br⟩ with
    | error e => simp
    | ok u => simp
  · cases fr with
    | error e => simp [runModel]
    | ok pkgs =>
      by_cases hp : pkgs = []
      · subst hp; simp [runModel]
      · cases cov <;> cases html <;> cases br <;>
          simp [runModel, hp, List.isEmpty_iff]
  · intro e he
    cases fr with
    | error e2 =>
      obtain rfl := Except.error.inj he
      rfl
    | ok pkgs => exact absurd he (by simp)

/-! ## Verbose streaming versus quiet buffering (C6) -/

/-- How the test runner's output is wired (source lines choosing between
`os.Stdout`/`os.Stderr` and a buffer). -/
inductive StreamMode where
  | streamed
  | buffered
deriving DecidableEq

/-- The output wiring chosen for the given verbosity switch. -/
def testOutputHandling (verbose : Bool) : StreamMode :=
  if verbose then .streamed else .buffered

/-- The per-line predicate of `printTestErrors`: FAIL lines, error
messages, panics, got/want/expected diffs and test-file positions. -/
def errorLine (line : String) : Bool :=
  containsSubstr line "FAIL" ||
  containsSubstr line "Error" ||
  containsSubstr line "error" ||
  containsSubstr line "panic" ||
  containsSubstr line "--- FAIL" ||
  strStartsWith (trimSpace line) "got:" ||
  strStartsWith (trimSpace line) "want:" ||
  strStartsWith (trimSpace line) "expected" ||
  containsSubstr line "_test.go:"

/-- `printTestErrors`: the lines of the buffered output that pass the
error filter, in order. -/
def printTestErrors (output : String) : List String :=
  (output.splitOn "\n").filter errorLine

/-- What quiet mode prints from the buffer: the filtered output when the
test runner failed, nothing otherwise. -/
def quietModeOutput (testFailed : Bool) (output : String) : Option (List String) :=
  if testFailed then some (printTestErrors output) else none

/-- C6: with the verbosity switch the runner's output is streamed
directly; without it the output is buffered, and the buffer is printed,
filtered to error-related lines, exactly when the runner exited with an
error. -/
theorem verbose_streaming (output : String) :
    testOutputHandling true = StreamMode.streamed ∧
    testOutputHandling false = StreamMode.buffered ∧
    quietModeOutput true output = some (printTestErrors output) ∧
    quietModeOutput false output = none ∧
    (∀ failed, (quietModeOutput failed output).isSome ↔ failed = true) := by
  refine ⟨rfl, rfl, rfl, rfl, ?_⟩
  intro failed
  cases failed <;> simp [quietModeOutput]

/-! ## Flag parsing (C7) -/

/-- The detail-flag spellings (`-d`, `--detail`, `-detail`). -/
def isDetailFlag (a : String) : Bool :=
  a = "-d" || a = "--detail" || a = "-detail"

/-- The two-argument ignore-flag spellings (`-i`, `--ignore`, `-ignore`). -/
def isIgnoreFlag (a : String) : Bool :=
  a = "-i" || a = "--ignore" || a = "-ignore"

/-- The value of an `=`-form ignore flag (source's HasPrefix chain with
the matching slice offsets), `none` for any other argument. -/
def ignoreEqValue? (a : String) : Option String :=
  if strStartsWith a "-i=" then some (strDrop a 3)
  else if strStartsWith a "--ignore=" then some (strDrop a 9)
  else if strStartsWith a "-ignore=" then some (strDrop a 8)
  else none

/-- Split an ignore-flag value on commas, trim each piece, drop empties
(the source's Split/TrimSpace/append loop). -/
def splitPatterns (v : String) : List String :=
  ((v.splitOn ",").map trimSpace).filter (fun p => p ≠ "")

/-- The state `parseFlags` accumulates: the pass-through arguments and
the two globals `verbose` and `ignorePatterns`. -/
structure FlagSt where
  goTestArgs : List String
  verbose : Bool
  ignorePatterns : List String
deriving DecidableEq

/-- The loop of `parseFlags`, one switch arm per source case: detail flag,
two-argument ignore flag (consuming the next argument when present),
`=`-form ignore flag, default pass-through. -/
def parseFlagsGo : List String → FlagSt → FlagSt
  | [], st => st
  | arg :: rest, st =>
    if isDetailFlag arg then
      parseFlagsGo rest { st with verbose := true }
    else if isIgnoreFlag arg then
      match rest with
      | [] => st
      | v :: rest2 =>
        parseFlagsGo rest2
          { st with ignorePatterns := st.ignorePatterns ++ splitPatterns v }
    else
      match ignoreEqValue? arg with
      | some v =>
        parseFlagsGo rest
          { st with ignorePatterns := st.ignorePatterns ++ splitPatterns v }
      | none =>
        parseFlagsGo rest { st with goTestArgs := st.goTestArgs ++ [arg] }

/-- `parseFlags` starts from empty globals. -/
def parseFlags (args : List String) : FlagSt :=
  parseFlagsGo args ⟨[], false, []⟩

/-- The ignore patterns the claim describes: each ignore flag (either
form) contributes its comma-split, trimmed, non-empty pieces, in order. -/
def specIgnorePatterns : List String → List String
  | [] => []
  | a :: rest =>
    if isIgnoreFlag a then
      match rest with
      | [] => []
      | v :: rest2 => splitPatterns v ++ specIgnorePatterns rest2
    else
      match ignoreEqValue? a with
      | some _ => splitPatterns ((ignoreEqValue? a).getD "") ++ specIgnorePatterns rest
      | none => specIgnorePatterns rest

/-- The pass-through arguments the claim describes: every argument that is
not a gotest-specific flag (nor the value consumed by a two-argument
ignore flag), unchanged and in order. -/
def specPassThrough : List String → List String
  | [] => []
  | a :: rest =>
    if isDetailFlag a then specPassThrough rest
    else if isIgnoreFlag a then
      match rest with
      | [] => []
      | _ :: rest2 => specPassThrough rest2
    else
      match ignoreEqValue? a with
      | some _ => specPassThrough rest
      | none => a :: specPassThrough rest

theorem detail_not_ignore {a : String} (h : isDetailFlag a = true) :
    isIgnoreFlag a = false ∧ ignoreEqValue? a = none := by
  unfold isDetailFlag at h
  simp only [Bool.or_eq_true, decide_eq_true_eq] at h
  rcases h with (h | h) | h <;> subst h <;> exact ⟨by decide, by decide⟩

theorem parseFlagsGo_ignore :
    ∀ (args : List String) (st : FlagSt),
      (parseFlagsGo args st).ignorePatterns =
        st.ignorePatterns ++ specIgnorePatterns args
  | [], st => by simp [parseFlagsGo, specIgnorePatterns]
  | arg :: rest, st => by
    unfold parseFlagsGo specIgnorePatterns
    by_cases hd : isDetailFlag arg = true
    · obtain ⟨hni, hne⟩ := detail_not_ignore hd
      rw [if_pos hd, if_neg (by simp [hni]), hne]
      exact parseFlagsGo_ignore rest _
    · rw [if_neg hd]
      by_cases hi : isIgnoreFlag arg = true
      · rw [if_pos hi, if_pos hi]
        cases rest with
        | nil => simp
        | cons v rest2 =>
          rw [parseFlagsGo_ignore rest2 _]
          simp
      · rw [if_neg hi, if_neg hi]
        cases he : ignoreEqValue? arg with
        | some v =>
          rw [parseFlagsGo_ignore rest _]
          simp [he]
        | none => exact parseFlagsGo_ignore rest _

theorem parseFlagsGo_args :
    ∀ (args : List String) (st : FlagSt),
      (parseFlagsGo args st).goTestArgs = st.goTestArgs ++ specPassThrough args
  | [], st => by simp [parseFlagsGo, specPassThrough]
  | arg :: rest, st => by
    unfold parseFlagsGo specPassThrough
    by_cases hd : isDetailFlag arg = true
    · rw [if_pos hd, if_pos hd]
      exact parseFlagsGo_args rest _
    · rw [if_neg hd, if_neg hd]
      by_cases hi : isIgnoreFlag arg = true
      · rw [if_pos hi, if_pos hi]
        cases rest with
        | nil => simp
        | cons v rest2 => exact parseFlagsGo_args rest2 _
      · rw [if_neg hi, if_neg hi]
        cases he : ignoreEqValue? arg with
        | some v => exact parseFlagsGo_args rest _
        | none =>
          rw [parseFlagsGo_args rest _]
          simp

/-- C7: `parseFlags` turns each ignore flag (two-argument or `=` form)
into comma-split, whitespace-trimmed, non-empty patterns appended in
order, and returns every non-gotest-specific argument unchanged and in
order as a pass-through argument. -/
theorem parseFlags_correct (args : List String) :
    (parseFlags args).ignorePatterns = specIgnorePatterns args ∧
    (parseFlags args).goTestArgs = specPassThrough args := by
  constructor
  · rw [parseFlags, parseFlagsGo_ignore]
    rfl
  · rw [parseFlags, parseFlagsGo_args]
    rfl

/-! ## Determinism and sorted display of the summary (C8) -/

/-- The keys of the statistics map, in insertion order (the Go map's
iteration order is irrelevant because the display sorts them). -/
def packageKeys (m : StatsMap) : List String := m.map (fun e => e.1)

/-- `sort.Strings`: ascending lexicographic sort.  Any correct sort of
strings produces the same list, so insertion sort models it exactly. -/
def sortStrings (l : List String) : List String := List.insertionSort (· ≤ ·) l

/-- The order in which the summary prints one row per package. -/
def displayOrder (lines : List String) : List String :=
  sortStrings (packageKeys (displayCoverageStats lines))

theorem packageKeys_updateStats (m : StatsMap) (k : String) (n c : Int) (k' : String) :
    k' ∈ packageKeys (updateStats m k n c) ↔ k' ∈ packageKeys m ∨ k' = k := by
  induction m with
  | nil => simp [updateStats, packageKeys]
  | cons e rest ih =>
    obtain ⟨k2, s⟩ := e
    by_cases h : k2 = k
    · subst h
      simp only [updateStats, if_true]
      simp only [packageKeys, List.map_cons, List.mem_cons]
      tauto
    · simp only [updateStats, if_neg h, packageKeys, List.map_cons, List.mem_cons] at ih ⊢
      rw [ih]
      tauto

theorem packageKeys_nodup_updateStats (m : StatsMap) (k : String) (n c : Int)
    (h : (packageKeys m).Nodup) : (packageKeys (updateStats m k n c)).Nodup := by
  induction m with
  | nil => simp [updateStats, packageKeys]
  | cons e rest ih =>
    obtain ⟨k2, s⟩ := e
    by_cases hk : k2 = k
    · subst hk
      simpa [updateStats, packageKeys] using h
    · simp only [packageKeys, List.map_cons, List.nodup_cons] at h
      simp only [updateStats, if_neg hk, packageKeys, List.map_cons, List.nodup_cons]
      refine ⟨?_, ih h.2⟩
      intro hm
      have := (packageKeys_updateStats rest k n c k2).mp hm
      rcases this with hh | hh
      · exact h.1 hh
      · exact hk hh

theorem mem_packageKeys_processLine (m : StatsMap) (l : String) (k : String) :
    k ∈ packageKeys (processLine m l) ↔
      k ∈ packageKeys m ∨ (∃ n c, parseLine l = some (k, n, c)) := by
  unfold processLine
  cases hp : parseLine l with
  | none => simp
  | some e =>
    obtain ⟨p, n, c⟩ := e
    rw [packageKeys_updateStats]
    constructor
    · rintro (hm | rfl)
      · exact Or.inl hm
      · exact Or.inr ⟨n, c, rfl⟩
    · rintro (hm | ⟨n2, c2, he⟩)
      · exact Or.inl hm
      · simp only [Option.some.injEq, Prod.mk.injEq] at he
        exact Or.inr he.1.symm

theorem mem_packageKeys_foldl (ls : List String) (m : StatsMap) (k : String) :
    k ∈ packageKeys (ls.foldl processLine m) ↔
      k ∈ packageKeys m ∨ (∃ l ∈ ls, ∃ n c, parseLine l = some (k, n, c)) := by
  induction ls generalizing m with
  | nil => simp
  | cons l ls ih =>
    rw [List.foldl_cons, ih, mem_packageKeys_processLine]
    constructor
    · rintro ((hm | ⟨n, c, hp⟩) | ⟨l', hl', hp'⟩)
      · exact Or.inl hm
      · exact Or.inr ⟨l, List.mem_cons_self l ls, n, c, hp⟩
      · exact Or.inr ⟨l', List.mem_cons_of_mem l hl', hp'⟩
    · rintro (hm | ⟨l', hl', hp'⟩)
      · exact Or.inl (Or.inl hm)
      · rcases List.mem_cons.mp hl' with rfl | hl2
        · exact Or.inl (Or.inr hp')
        · exact Or.inr ⟨l', hl2, hp'⟩

theorem packageKeys_nodup_foldl (ls : List String) (m : StatsMap)
    (h : (packageKeys m).Nodup) : (packageKeys (ls.foldl processLine m)).Nodup := by
  induction ls generalizing m with
  | nil => exact h
  | cons l ls ih =>
    rw [List.foldl_cons]
    apply ih
    unfold processLine
    cases parseLine l with
    | none => exact h
    | some e => exact packageKeys_nodup_updateStats m e.1 e.2.1 e.2.2 h

theorem displayCoverageStats_keys_nodup (lines : List String) :
    (packageKeys (displayCoverageStats lines)).Nodup :=
  packageKeys_nodup_foldl lines [] (by simp [packageKeys])

theorem packageKeys_perm_of_perm {l1 l2 : List String} (h : l1.Perm l2) :
    (packageKeys (displayCoverageStats l1)).Perm
      (packageKeys (displayCoverageStats l2)) := by
  apply (List.perm_ext_iff_of_nodup (displayCoverageStats_keys_nodup l1)
    (displayCoverageStats_keys_nodup l2)).mpr
  intro k
  unfold displayCoverageStats
  rw [mem_packageKeys_foldl, mem_packageKeys_foldl]
  constructor
  · rintro (hm | ⟨l, hl, hp⟩)
    · simp [packageKeys] at hm
    · exact Or.inr ⟨l, h.mem_iff.mp hl, hp⟩
  · rintro (hm | ⟨l, hl, hp⟩)
    · simp [packageKeys] at hm
    · exact Or.inr ⟨l, h.mem_iff.mpr hl, hp⟩

theorem displayOrder_eq_of_perm {l1 l2 : List String} (h : l1.Perm l2) :
    displayOrder l1 = displayOrder l2 := by
  have hperm : (displayOrder l1).Perm (displayOrder l2) :=
    ((List.perm_insertionSort _ _).trans (packageKeys_perm_of_perm h)).trans
      (List.perm_insertionSort _ _).symm
  exact List.eq_of_perm_of_sorted hperm (List.sorted_insertionSort _ _)
    (List.sorted_insertionSort _ _)

/-- C8: the per-package totals are invariant under any permutation of the
profile lines, the summary prints one row per package key in ascending
lexicographic order, and permuted profiles produce the same row order. -/
theorem coverage_summary_deterministic (l1 l2 : List String) (h : l1.Perm l2) :
    (∀ k, statsTotalOf (displayCoverageStats l1) k =
            statsTotalOf (displayCoverageStats l2) k ∧
          statsCoveredOf (displayCoverageStats l1) k =
            statsCoveredOf (displayCoverageStats l2) k) ∧
    (displayOrder l1).Sorted (· ≤ ·) ∧
    (displayOrder l1).Perm (packageKeys (displayCoverageStats l1)) ∧
    displayOrder l1 = displayOrder l2 := by
  refine ⟨?_, List.sorted_insertionSort _ _, List.perm_insertionSort _ _,
    displayOrder_eq_of_perm h⟩
  intro k
  constructor
  · rw [displayCoverageStats_total_wrap, displayCoverageStats_total_wrap,
      claimTotal_eq_sum_map, claimTotal_eq_sum_map, (h.map (lineTotalFor k)).sum_eq]
  · rw [displayCoverageStats_covered_wrap, displayCoverageStats_covered_wrap,
      claimCovered_eq_sum_map, claimCovered_eq_sum_map,
      (h.map (lineCoveredFor k)).sum_eq]

/-- Concrete permuted profiles for the C8 witness. -/
def permEx1 : List String := ["pkg/a/f.go:1.1,2.2 3 1", "pkg/b/g.go:3.1,4.4 2 0"]

/-- `permEx1` with its two lines swapped. -/
def permEx2 : List String := ["pkg/b/g.go:3.1,4.4 2 0", "pkg/a/f.go:1.1,2.2 3 1"]

/-- Witness for C8 at a concrete pair of permuted profiles. -/
theorem coverage_summary_deterministic_witness :
    permEx1.Perm permEx2 ∧
    ((∀ k, statsTotalOf (displayCoverageStats permEx1) k =
             statsTotalOf (displayCoverageStats permEx2) k ∧
           statsCoveredOf (displayCoverageStats permEx1) k =
             statsCoveredOf (displayCoverageStats permEx2) k) ∧
     (displayOrder permEx1).Sorted (· ≤ ·) ∧
     (displayOrder permEx1).Perm (packageKeys (displayCoverageStats permEx1)) ∧
     displayOrder permEx1 = displayOrder permEx2) :=
  ⟨List.Perm.swap _ _ _,
    coverage_summary_deterministic permEx1 permEx2 (List.Perm.swap _ _ _)⟩

/-! ## Package discovery: `findGoPackages` (C3)

The directory tree is an explicit inductive value; `filepath.Walk`'s
lexical visiting order is the order of each `children` list.  Paths are
built exactly as Walk builds them from the root `"."`. -/

/-- A file-system tree node. -/
inductive Entry where
  | file (name : String)
  | dir (name : String) (children : List Entry)

/-- Modelled from the spec: `shouldIgnore` is called by `findGoPackages`
but its definition is not among the provided sources.  The spec's
"user-specified ignore patterns" and the usage text (ignore packages
containing the given strings) say a path is ignored exactly when some
ignore pattern occurs as a substring of it. -/
def shouldIgnore (pats : List String) (path : String) : Bool :=
  pats.any fun p => containsSubstr path p

/-- The walk callback's skip test for a directory: hidden name (except
the root "."), `vendor`, `testdata`, or an ignored path. -/
def skipDirEntry (pats : List String) (name path : String) : Bool :=
  (strStartsWith name "." && name ≠ ".") || name = "vendor" || name = "testdata" ||
  shouldIgnore pats path

/-- The recorded package form of a directory: `"./."` for the root,
`"./" ++ dir` otherwise. -/
def pkgFmt (d : String) : String :=
  if d = "." then "./." else String.mk ('.' :: '/' :: d.data)

/-- The walk's accumulating state: the `seen` map (as a list in
first-seen order) and the collected package list. -/
structure WalkSt where
  seen : List String
  pkgs : List String

/-- The walk callback's file branch: when the path ends in `.go` and the
file's directory is new and not ignored, record it. -/
def visitFile (pats : List String) (fp : String) (st : WalkSt) : WalkSt :=
  if strEndsWith fp ".go" then
    if dirOf fp ∉ st.seen ∧ shouldIgnore pats (dirOf fp) = false then
      ⟨st.seen ++ [dirOf fp], st.pkgs ++ [pkgFmt (dirOf fp)]⟩
    else st
  else st

/-- `filepath.Walk` over the children of the directory at `path`: files
are handed to the callback, non-skipped directories are entered,
skipped directories' subtrees are never visited. -/
def walkList (pats : List String) : String → List Entry → WalkSt → WalkSt
  | _, [], st => st
  | path, .file name :: rest, st =>
    walkList pats path rest (visitFile pats (joinPath path name) st)
  | path, .dir name cs :: rest, st =>
    walkList pats path rest
      (if skipDirEntry pats name (joinPath path name) then st
       else walkList pats (joinPath path name) cs st)

/-- `findGoPackages` rooted at `"."` (the callback sees the root as a
directory named `"."`, which only an ignore pattern can skip). -/
def findGoPackages (pats : List String) (root : List Entry) : List String :=
  if skipDirEntry pats "." "." then []
  else (walkList pats "." root ⟨[], []⟩).pkgs

/-- Is this entry a file whose name ends in `.go`? -/
def isGoFileEntry : Entry → Bool
  | .file n => strEndsWith n ".go"
  | .dir _ _ => false

/-- Does a directory with these children directly contain a `.go` file? -/
def hasGoFileName (cs : List Entry) : Bool := cs.any isGoFileEntry

/-- The claim's qualifying directories strictly below the directory at
`path`: reachable without entering a skipped directory, and directly
containing a file whose name ends in `.go`. -/
def goDirsList (pats : List String) : String → List Entry → List String
  | _, [] => []
  | path, .file _ :: rest => goDirsList pats path rest
  | path, .dir name cs :: rest =>
    (if skipDirEntry pats name (joinPath path name) then []
     else (if hasGoFileName cs then [joinPath path name] else []) ++
       goDirsList pats (joinPath path name) cs) ++
    goDirsList pats path rest

/-- All qualifying directories of the tree, the root `"."` included. -/
def goPkgDirs (pats : List String) (root : List Entry) : List String :=
  if skipDirEntry pats "." "." then []
  else (if hasGoFileName root then ["."] else []) ++ goDirsList pats "." root

/-- The directory a single file visit can record (the code's conditions
verbatim, before any well-formedness reasoning). -/
def fileContrib (pats : List String) (path name : String) : List String :=
  if strEndsWith (joinPath path name) ".go" = true ∧
      shouldIgnore pats (dirOf (joinPath path name)) = false then
    [dirOf (joinPath path name)]
  else []

/-- The directories the walk below `path` can record, following the walk's
recursion exactly. -/
def collectList (pats : List String) : String → List Entry → List String
  | _, [] => []
  | path, .file name :: rest =>
    fileContrib pats path name ++ collectList pats path rest
  | path, .dir name cs :: rest =>
    (if skipDirEntry pats name (joinPath path name) then []
     else collectList pats (joinPath path name) cs) ++
    collectList pats path rest

/-- A well-formed file-system name: non-empty, not `.` or `..`, and
without a separator. -/
def goodName (n : String) : Bool :=
  !n.data.isEmpty && n ≠ "." && n ≠ ".." && !n.data.contains '/'

/-- Well-formedness of a tree: every entry has a good name. -/
def wfList : List Entry → Bool
  | [] => true
  | .file n :: rest => goodName n && wfList rest
  | .dir n cs :: rest => goodName n && wfList cs && wfList rest

/-- A well-formed path component. -/
def goodComp (c : List Char) : Bool :=
  !c.isEmpty && c ≠ ['.'] && c ≠ ['.', '.'] && !c.contains '/'

/-- A path as the walk builds them: `"."` or slash-joined good
components. -/
def goodPath (p : String) : Bool :=
  p = "." || (splitOnChar '/' p.data).all goodComp

/-! ### Lexical path lemmas -/

theorem dropWhile_ne_nil_of_not_mem {a : Char} :
    ∀ {xs : List Char}, a ∉ xs → xs.dropWhile (fun c => c ≠ a) = []
  | [], _ => rfl
  | x :: xs, h => by
    have hx : x ≠ a := fun e => h (e ▸ List.mem_cons_self x xs)
    rw [List.dropWhile_cons, if_pos (by simp [hx])]
    exact dropWhile_ne_nil_of_not_mem (fun hm => h (List.mem_cons_of_mem x hm))

theorem dropWhile_ne_append {a : Char} :
    ∀ {xs : List Char} (ys : List Char), a ∉ xs →
      (xs ++ a :: ys).dropWhile (fun c => c ≠ a) = a :: ys
  | [], ys, _ => by
    rw [List.nil_append, List.dropWhile_cons, if_neg (by simp)]
  | x :: xs, ys, h => by
    have hx : x ≠ a := fun e => h (e ▸ List.mem_cons_self x xs)
    rw [List.cons_append, List.dropWhile_cons, if_pos (by simp [hx])]
    exact dropWhile_ne_append ys (fun hm => h (List.mem_cons_of_mem x hm))

theorem splitOnChar_ne_nil (sep : Char) : ∀ (l : List Char), splitOnChar sep l ≠ []
  | [] => by simp [splitOnChar]
  | c :: cs => by
    have ih := splitOnChar_ne_nil sep cs
    cases h : splitOnChar sep cs with
    | nil => exact absurd h ih
    | cons hd tl => by_cases hc : c = sep <;> simp [splitOnChar, h, hc]

theorem splitOnChar_cons_sep (sep : Char) (r : List Char) :
    splitOnChar sep (sep :: r) = [] :: splitOnChar sep r := by
  cases h : splitOnChar sep r with
  | nil => exact absurd h (splitOnChar_ne_nil sep r)
  | cons hd tl => simp [splitOnChar, h]

theorem splitOnChar_cons_ne {sep x : Char} (hx : x ≠ sep) (r : List Char) :
    ∃ hd tl, splitOnChar sep r = hd :: tl ∧
      splitOnChar sep (x :: r) = (x :: hd) :: tl := by
  cases h : splitOnChar sep r with
  | nil => exact absurd h (splitOnChar_ne_nil sep r)
  | cons hd tl => exact ⟨hd, tl, rfl, by simp [splitOnChar, h, hx]⟩

theorem splitOnChar_append_cons (sep : Char) :
    ∀ (l r : List Char), splitOnChar sep (l ++ sep :: r) =
      splitOnChar sep l ++ splitOnChar sep r
  | [], r => by
    rw [List.nil_append, splitOnChar_cons_sep]
    rfl
  | x :: l, r => by
    have ih := splitOnChar_append_cons sep l r
    rw [List.cons_append]
    by_cases hc : x = sep
    · subst hc
      rw [splitOnChar_cons_sep, splitOnChar_cons_sep, ih, List.cons_append]
    · obtain ⟨hd1, tl1, he1, he2⟩ := splitOnChar_cons_ne hc (l ++ sep :: r)
      obtain ⟨hd2, tl2, he3, he4⟩ := splitOnChar_cons_ne hc l
      rw [he2, he4]
      rw [he1, he3] at ih
      cases hih : splitOnChar sep r with
      | nil => exact absurd hih (splitOnChar_ne_nil sep r)
      | cons rh rt =>
        rw [hih] at ih
        cases tl2 with
        | nil =>
          simp only [List.cons_append, List.nil_append] at ih ⊢
          obtain ⟨rfl, rfl⟩ := List.cons.inj ih
          rfl
        | cons a b =>
          simp only [List.cons_append] at ih ⊢
          obtain ⟨rfl, rfl⟩ := List.cons.inj ih
          rfl

theorem splitOnChar_of_not_mem {sep : Char} :
    ∀ {l : List Char}, sep ∉ l → splitOnChar sep l = [l]
  | [], _ => rfl
  | x :: l, h => by
    have hx : x ≠ sep := fun e => h (e ▸ List.mem_cons_self x l)
    have ih := splitOnChar_of_not_mem (fun hm => h (List.mem_cons_of_mem x hm))
    obtain ⟨hd, tl, he1, he2⟩ := splitOnChar_cons_ne hx l
    rw [he1] at ih
    obtain ⟨rfl, rfl⟩ := List.cons.inj ih
    rw [he2]

theorem joinComps_splitOnChar (sep : Char) :
    ∀ (l : List Char), joinComps sep (splitOnChar sep l) = l
  | [] => rfl
  | c :: cs => by
    have ih := joinComps_splitOnChar sep cs
    by_cases hc : c = sep
    · subst hc
      rw [splitOnChar_cons_sep]
      cases h : splitOnChar c cs with
      | nil => exact absurd h (splitOnChar_ne_nil c cs)
      | cons hd tl =>
        rw [h] at ih
        show joinComps c ([] :: hd :: tl) = c :: cs
        simp only [joinComps, List.nil_append]
        rw [ih]
    · obtain ⟨hd, tl, he1, he2⟩ := splitOnChar_cons_ne hc cs
      rw [he2]
      rw [he1] at ih
      cases tl with
      | nil =>
        simp only [joinComps] at ih ⊢
        rw [ih]
      | cons t1 t2 =>
        simp only [joinComps] at ih ⊢
        rw [List.cons_append, ih]

theorem foldl_cleanPush_good (b : Bool) :
    ∀ (comps : List (List Char)) (acc : List (List Char)),
      (∀ c ∈ comps, goodComp c = true) →
      comps.foldl (cleanPush b) acc = comps.reverse ++ acc
  | [], acc, _ => by simp
  | c :: comps, acc, h => by
    have hc := h c (List.mem_cons_self c comps)
    have hpush : cleanPush b acc c = c :: acc := by
      unfold goodComp at hc
      simp only [Bool.and_eq_true, Bool.not_eq_true', decide_eq_true_eq] at hc
      unfold cleanPush
      rw [if_neg (by simp [hc.1.1.1, hc.1.1.2]), if_neg (by simp [hc.1.2])]
    rw [List.foldl_cons, hpush,
      foldl_cleanPush_good b comps (c :: acc) (fun x hx => h x (List.mem_cons_of_mem c hx))]
    simp

theorem goodPath_ne_empty {p : String} (hp : goodPath p = true) : p.data ≠ [] := by
  intro he
  unfold goodPath at hp
  rcases Bool.or_eq_true _ _ |>.mp hp with h | h
  · have : p = "." := by simpa using h
    rw [this] at he
    simp at he
  · rw [he] at h
    simp only [splitOnChar, List.all_cons, Bool.and_eq_true] at h
    exact absurd h.1 (by simp [goodComp])

theorem joinComps_cons_append (sep : Char) (c : List Char) (cs : List (List Char)) :
    ∃ t, joinComps sep (c :: cs) = c ++ t := by
  cases cs with
  | nil => exact ⟨[], by simp [joinComps]⟩
  | cons c2 rest => exact ⟨sep :: joinComps sep (c2 :: rest), rfl⟩

theorem cleanPath_append_slash {p : String} (hp : goodPath p = true) (hne : p ≠ ".") :
    cleanPath (p.data ++ ['/']) = p.data := by
  have hall : ∀ c ∈ splitOnChar '/' p.data, goodComp c = true := by
    unfold goodPath at hp
    rcases Bool.or_eq_true _ _ |>.mp hp with h | h
    · exact absurd (by simpa using h) hne
    · exact fun c hc => List.all_eq_true.mp h c hc
  have hnonempty := goodPath_ne_empty hp
  have hrecon := joinComps_splitOnChar '/' p.data
  unfold cleanPath
  rw [if_neg (by simp)]
  dsimp only
  have hsplit : splitOnChar '/' (p.data ++ ['/']) =
      splitOnChar '/' p.data ++ [[]] := by
    have := splitOnChar_append_cons '/' p.data []
    simpa [splitOnChar] using this
  rw [hsplit, List.foldl_append,
    foldl_cleanPush_good _ (splitOnChar '/' p.data) [] hall]
  have hpush_empty : ∀ (b : Bool) (st : List (List Char)),
      List.foldl (cleanPush b) st [[]] = st := by
    intro b st
    simp [cleanPush]
  rw [hpush_empty]
  simp only [List.append_nil, List.reverse_reverse]
  rw [hrecon]
  have hhead : (p.data ++ ['/']).head? ≠ some '/' := by
    cases hsp : splitOnChar '/' p.data with
    | nil => exact absurd hsp (splitOnChar_ne_nil '/' p.data)
    | cons c0 rest =>
      have hc0 := hall c0 (hsp ▸ List.mem_cons_self c0 rest)
      obtain ⟨t, ht⟩ := joinComps_cons_append '/' c0 rest
      have : p.data = c0 ++ t := by rw [← hrecon, hsp, ht]
      cases c0 with
      | nil => exact absurd hc0 (by simp [goodComp])
      | cons x0 xs =>
        unfold goodComp at hc0
        simp only [Bool.and_eq_true, Bool.not_eq_true', decide_eq_true_eq] at hc0
        have hx0 : x0 ≠ '/' := by
          intro he
          have : '/' ∈ x0 :: xs := he ▸ List.mem_cons_self x0 xs
          rw [List.contains_eq_any_beq] at hc0
          have := hc0.2
          rw [List.any_eq_false] at this
          exact absurd (by simpa using he.symm) (by simpa using this x0 (List.mem_cons_self x0 xs))
        rw [this]
        simp [hx0]
  rw [if_neg (by simpa using hhead)]
  rw [if_neg (by simpa using hnonempty)]

theorem string_eq_iff_data {s t : String} : s = t ↔ s.data = t.data :=
  ⟨fun h => h ▸ rfl, fun h => by cases s; cases t; exact congrArg String.mk h⟩

theorem goodName_not_slash_mem {n : String} (hn : goodName n = true) :
    '/' ∉ n.data := by
  unfold goodName at hn
  simp only [Bool.and_eq_true, Bool.not_eq_true', decide_eq_true_eq] at hn
  intro hm
  have h1 := hn.2
  rw [List.contains_eq_any_beq, List.any_eq_false] at h1
  have h2 := h1 '/' hm
  simp at h2

theorem joinPath_data {p n : String} (hne : p ≠ ".") :
    (joinPath p n).data = p.data ++ '/' :: n.data := by
  unfold joinPath
  rw [if_neg hne]

theorem dirOf_joinPath {p n : String} (hp : goodPath p = true) (hn : goodName n = true) :
    dirOf (joinPath p n) = p := by
  have hslash := goodName_not_slash_mem hn
  by_cases hne : p = "."
  · subst hne
    unfold joinPath
    rw [if_pos rfl]
    unfold dirOf upToLastSlash
    rw [dropWhile_ne_nil_of_not_mem (by simpa using hslash)]
    decide
  · unfold dirOf upToLastSlash
    rw [joinPath_data hne, List.reverse_append, List.reverse_cons, List.append_assoc,
      List.singleton_append, dropWhile_ne_append _ (by simpa using hslash),
      List.reverse_cons, List.reverse_reverse, cleanPath_append_slash hp hne]

theorem goodComp_of_goodName {n : String} (hn : goodName n = true) :
    goodComp n.data = true := by
  unfold goodName at hn
  unfold goodComp
  simp only [Bool.and_eq_true, Bool.not_eq_true', decide_eq_true_eq] at hn ⊢
  refine ⟨⟨⟨hn.1.1.1, ?_⟩, ?_⟩, hn.2⟩
  · intro he
    exact hn.1.1.2 (string_eq_iff_data.mpr he)
  · intro he
    exact hn.1.2 (string_eq_iff_data.mpr he)

theorem goodPath_root : goodPath "." = true := by decide

theorem goodPath_joinPath {p n : String} (hp : goodPath p = true) (hn : goodName n = true) :
    goodPath (joinPath p n) = true := by
  have hslash := goodName_not_slash_mem hn
  by_cases hne : p = "."
  · subst hne
    unfold joinPath
    rw [if_pos rfl]
    unfold goodPath
    rw [splitOnChar_of_not_mem hslash]
    simp [goodComp_of_goodName hn]
  · unfold goodPath at hp
    rcases Bool.or_eq_true _ _ |>.mp hp with h | h
    · exact absurd (by simpa using h) hne
    · unfold goodPath
      rw [joinPath_data hne, splitOnChar_append_cons, splitOnChar_of_not_mem hslash]
      apply Bool.or_eq_true _ _ |>.mpr
      right
      rw [List.all_append]
      simp only [Bool.and_eq_true]
      exact ⟨h, by simp [goodComp_of_goodName hn]⟩

theorem prefixMatch_append_sep {sep : Char} :
    ∀ (pat xs ys : List Char), sep ∉ pat →
      prefixMatch pat (xs ++ sep :: ys) = prefixMatch pat xs
  | [], xs, ys, _ => by cases xs <;> rfl
  | p :: ps, [], ys, h => by
    have hp : p ≠ sep := fun e => h (e ▸ List.mem_cons_self p ps)
    rw [List.nil_append]
    show (decide (p = sep) && prefixMatch ps ys) = false
    simp [hp]
  | p :: ps, x :: xs, ys, h => by
    rw [List.cons_append]
    show (decide (p = x) && prefixMatch ps (xs ++ sep :: ys)) =
      (decide (p = x) && prefixMatch ps xs)
    rw [prefixMatch_append_sep ps xs ys (fun hm => h (List.mem_cons_of_mem p hm))]

theorem strEndsWith_joinPath (p n : String) :
    strEndsWith (joinPath p n) ".go" = strEndsWith n ".go" := by
  by_cases hne : p = "."
  · subst hne
    unfold joinPath
    rw [if_pos rfl]
  · have hrev : (p.data ++ '/' :: n.data).reverse =
        n.data.reverse ++ '/' :: p.data.reverse := by
      rw [List.reverse_append, List.reverse_cons, List.append_assoc,
        List.singleton_append]
    unfold strEndsWith
    rw [joinPath_data hne, hrev]
    exact prefixMatch_append_sep _ _ _ (by decide)

/-! ### Walk lemmas -/

theorem mem_fileContrib (pats : List String) (path name d : String) :
    d ∈ fileContrib pats path name ↔
      (strEndsWith (joinPath path name) ".go" = true ∧
       shouldIgnore pats (dirOf (joinPath path name)) = false ∧
       d = dirOf (joinPath path name)) := by
  unfold fileContrib
  by_cases hcond : strEndsWith (joinPath path name) ".go" = true ∧
      shouldIgnore pats (dirOf (joinPath path name)) = false
  · rw [if_pos hcond]
    simp [hcond.1, hcond.2]
  · rw [if_neg hcond]
    constructor
    · intro h
      exact absurd h (List.not_mem_nil d)
    · rintro ⟨h1, h2, -⟩
      exact absurd ⟨h1, h2⟩ hcond

theorem visitFile_seen_mem (pats : List String) (fp : String) (st : WalkSt) (d : String) :
    d ∈ (visitFile pats fp st).seen ↔
      d ∈ st.seen ∨
        (strEndsWith fp ".go" = true ∧ shouldIgnore pats (dirOf fp) = false ∧
         d = dirOf fp) := by
  unfold visitFile
  by_cases hgo : strEndsWith fp ".go" = true
  · rw [if_pos hgo]
    by_cases hc : dirOf fp ∉ st.seen ∧ shouldIgnore pats (dirOf fp) = false
    · rw [if_pos hc]
      simp only [List.mem_append, List.mem_singleton]
      constructor
      · rintro (hm | rfl)
        · exact Or.inl hm
        · exact Or.inr ⟨hgo, hc.2, rfl⟩
      · rintro (hm | ⟨-, -, rfl⟩)
        · exact Or.inl hm
        · exact Or.inr rfl
    · rw [if_neg hc]
      constructor
      · exact Or.inl
      · rintro (hm | ⟨-, h2, rfl⟩)
        · exact hm
        · by_cases hmem : dirOf fp ∈ st.seen
          · exact hmem
          · exact absurd ⟨hmem, h2⟩ hc
  · rw [if_neg hgo]
    constructor
    · exact Or.inl
    · rintro (hm | ⟨h1, -, -⟩)
      · exact hm
      · exact absurd h1 hgo

theorem visitFile_pkgs (pats : List String) (fp : String) (st : WalkSt)
    (h : st.pkgs = st.seen.map pkgFmt) :
    (visitFile pats fp st).pkgs = (visitFile pats fp st).seen.map pkgFmt := by
  unfold visitFile
  by_cases hgo : strEndsWith fp ".go" = true
  · rw [if_pos hgo]
    by_cases hc : dirOf fp ∉ st.seen ∧ shouldIgnore pats (dirOf fp) = false
    · rw [if_pos hc]
      simp [h]
    · rw [if_neg hc]
      exact h
  · rw [if_neg hgo]
    exact h

theorem visitFile_seen_nodup (pats : List String) (fp : String) (st : WalkSt)
    (h : st.seen.Nodup) : (visitFile pats fp st).seen.Nodup := by
  unfold visitFile
  by_cases hgo : strEndsWith fp ".go" = true
  · rw [if_pos hgo]
    by_cases hc : dirOf fp ∉ st.seen ∧ shouldIgnore pats (dirOf fp) = false
    · rw [if_pos hc]
      simp only [List.nodup_append, List.nodup_cons, List.not_mem_nil, not_false_iff,
        List.nodup_nil, and_true, true_and]
      refine ⟨h, ?_⟩
      intro x hx
      simp only [List.mem_singleton]
      intro he
      exact hc.1 (he ▸ hx)
    · rw [if_neg hc]
      exact h
  · rw [if_neg hgo]
    exact h

theorem walkList_seen_mem (pats : List String) (d : String) :
    ∀ (path : String) (cs : List Entry) (st : WalkSt),
      d ∈ (walkList pats path cs st).seen ↔
        d ∈ st.seen ∨ d ∈ collectList pats path cs := by
  intro path cs st
  induction path, cs, st using walkList.induct pats with
  | case1 path st => simp [walkList, collectList]
  | case2 path name rest st ih =>
    simp only [walkList, collectList]
    rw [ih, visitFile_seen_mem]
    simp only [List.mem_append, mem_fileContrib]
    tauto
  | case3 path name cs rest st ih1 ih2 =>
    by_cases hskip : skipDirEntry pats name (joinPath path name) = true
    · rw [dif_pos hskip] at ih2
      simp only [walkList, collectList]
      rw [if_pos hskip, if_pos hskip, ih2]
      simp
    · rw [dif_neg hskip] at ih2
      simp only [walkList, collectList]
      rw [if_neg hskip, if_neg hskip, ih2, ih1]
      rw [List.mem_append]
      tauto

theorem walkList_pkgs_eq (pats : List String) :
    ∀ (path : String) (cs : List Entry) (st : WalkSt),
      st.pkgs = st.seen.map pkgFmt →
      (walkList pats path cs st).pkgs = (walkList pats path cs st).seen.map pkgFmt := by
  intro path cs st
  induction path, cs, st using walkList.induct pats with
  | case1 path st =>
    intro h
    simpa [walkList] using h
  | case2 path name rest st ih =>
    intro h
    simp only [walkList]
    exact ih (visitFile_pkgs _ _ _ h)
  | case3 path name cs rest st ih1 ih2 =>
    intro h
    by_cases hskip : skipDirEntry pats name (joinPath path name) = true
    · rw [dif_pos hskip] at ih2
      simp only [walkList]
      rw [if_pos hskip]
      exact ih2 h
    · rw [dif_neg hskip] at ih2
      simp only [walkList]
      rw [if_neg hskip]
      exact ih2 (ih1 h)

theorem walkList_seen_nodup (pats : List String) :
    ∀ (path : String) (cs : List Entry) (st : WalkSt),
      st.seen.Nodup → (walkList pats path cs st).seen.Nodup := by
  intro path cs st
  induction path, cs, st using walkList.induct pats with
  | case1 path st =>
    intro h
    simpa [walkList] using h
  | case2 path name rest st ih =>
    intro h
    simp only [walkList]
    exact ih (visitFile_seen_nodup _ _ _ h)
  | case3 path name cs rest st ih1 ih2 =>
    intro h
    by_cases hskip : skipDirEntry pats name (joinPath path name) = true
    · rw [dif_pos hskip] at ih2
      simp only [walkList]
      rw [if_pos hskip]
      exact ih2 h
    · rw [dif_neg hskip] at ih2
      simp only [walkList]
      rw [if_neg hskip]
      exact ih2 (ih1 h)

theorem not_ignored_of_not_skipped {pats : List String} {name path : String}
    (h : ¬ skipDirEntry pats name path = true) :
    shouldIgnore pats path = false := by
  rw [Bool.not_eq_true] at h
  revert h
  unfold skipDirEntry
  cases shouldIgnore pats path <;> simp

theorem collectList_mem_iff (pats : List String) (d : String) :
    ∀ (path : String) (cs : List Entry),
      wfList cs = true → goodPath path = true → shouldIgnore pats path = false →
      (d ∈ collectList pats path cs ↔
        (hasGoFileName cs = true ∧ d = path) ∨ d ∈ goDirsList pats path cs) := by
  intro path cs
  induction path, cs using collectList.induct pats with
  | case1 path =>
    intro _ _ _
    simp [collectList, goDirsList, hasGoFileName]
  | case2 path name rest ih =>
    intro hwf hp hign
    have hsplit := hwf
    simp only [wfList, Bool.and_eq_true] at hsplit
    obtain ⟨hgn, hwf2⟩ := hsplit
    simp only [collectList, goDirsList]
    rw [List.mem_append, mem_fileContrib, dirOf_joinPath hp hgn, strEndsWith_joinPath,
      hign, ih hwf2 hp hign]
    simp only [hasGoFileName, List.any_cons, isGoFileEntry, Bool.or_eq_true]
    constructor
    · rintro (⟨h1, -, rfl⟩ | (⟨h1, rfl⟩ | hmem))
      · exact Or.inl ⟨Or.inl h1, rfl⟩
      · exact Or.inl ⟨Or.inr (by simpa [hasGoFileName] using h1), rfl⟩
      · exact Or.inr hmem
    · rintro (⟨h1 | h1, rfl⟩ | hmem)
      · exact Or.inl ⟨h1, trivial, rfl⟩
      · exact Or.inr (Or.inl ⟨by simpa [hasGoFileName] using h1, rfl⟩)
      · exact Or.inr (Or.inr hmem)
  | case3 path name cs rest ih1 ih2 =>
    intro hwf hp hign
    have hsplit := hwf
    simp only [wfList, Bool.and_eq_true] at hsplit
    obtain ⟨⟨hgn, hwfcs⟩, hwfrest⟩ := hsplit
    simp only [collectList, goDirsList]
    have hhasgo : hasGoFileName (Entry.dir name cs :: rest) = hasGoFileName rest := by
      simp [hasGoFileName, isGoFileEntry]
    rw [List.mem_append, hhasgo]
    by_cases hskip : skipDirEntry pats name (joinPath path name) = true
    · rw [if_pos hskip, if_pos hskip, ih2 hwfrest hp hign]
      constructor
      · rintro (hf | (⟨h1, rfl⟩ | hmem))
        · exact absurd hf (List.not_mem_nil d)
        · exact Or.inl ⟨h1, rfl⟩
        · exact Or.inr (List.mem_append.mpr (Or.inr hmem))
      · rintro (⟨h1, rfl⟩ | hmem)
        · exact Or.inr (Or.inl ⟨h1, rfl⟩)
        · rcases List.mem_append.mp hmem with hf | hmem2
          · exact absurd hf (List.not_mem_nil d)
          · exact Or.inr (Or.inr hmem2)
    · have hign2 := not_ignored_of_not_skipped hskip
      have hp2 := goodPath_joinPath hp hgn
      rw [if_neg hskip, if_neg hskip, ih2 hwfrest hp hign,
        ih1 hwfcs hp2 hign2]
      constructor
      · rintro ((⟨h1, rfl⟩ | hmem) | (⟨h1, rfl⟩ | hmem))
        · exact Or.inr (List.mem_append.mpr (Or.inl
            (List.mem_append.mpr (Or.inl (by simp [h1])))))
        · exact Or.inr (List.mem_append.mpr (Or.inl (List.mem_append.mpr (Or.inr hmem))))
        · exact Or.inl ⟨h1, rfl⟩
        · exact Or.inr (List.mem_append.mpr (Or.inr hmem))
      · rintro (⟨h1, rfl⟩ | hmem)
        · exact Or.inr (Or.inl ⟨h1, rfl⟩)
        · rcases List.mem_append.mp hmem with hin | hout
          · rcases List.mem_append.mp hin with hhead | htail
            · left
              by_cases hgo : hasGoFileName cs = true
              · rw [if_pos hgo] at hhead
                exact Or.inl ⟨hgo, List.mem_singleton.mp hhead⟩
              · rw [if_neg hgo] at hhead
                exact absurd hhead (List.not_mem_nil d)
            · exact Or.inl (Or.inr htail)
          · exact Or.inr (Or.inr hout)

theorem pkgFmt_injective {d1 d2 : String} (h : pkgFmt d1 = pkgFmt d2) : d1 = d2 := by
  unfold pkgFmt at h
  by_cases h1 : d1 = "."
  · by_cases h2 : d2 = "."
    · rw [h1, h2]
    · rw [if_pos h1, if_neg h2] at h
      have := string_eq_iff_data.mp h
      simp only at this
      exact absurd (string_eq_iff_data.mpr (by simpa using this.symm)) h2
  · by_cases h2 : d2 = "."
    · rw [if_neg h1, if_pos h2] at h
      have := string_eq_iff_data.mp h
      simp only at this
      exact absurd (string_eq_iff_data.mpr (by simpa using this)) h1
    · rw [if_neg h1, if_neg h2] at h
      have := string_eq_iff_data.mp h
      simp only at this
      exact string_eq_iff_data.mpr (by simpa using this)

/-- C3: with well-formed file names, `findGoPackages` returns, without
duplicates, exactly the `"./"`-formatted set of directories that directly
contain a file whose name ends in `.go` and are reachable without entering
a skipped directory (hidden other than the root `"."`, `vendor`,
`testdata`, or matching an ignore pattern). -/
theorem findGoPackages_correct (pats : List String) (root : List Entry)
    (hwf : wfList root = true) :
    (findGoPackages pats root).Nodup ∧
    (∀ p, p ∈ findGoPackages pats root ↔
      ∃ d, p = pkgFmt d ∧ d ∈ goPkgDirs pats root) := by
  unfold findGoPackages goPkgDirs
  by_cases hs : skipDirEntry pats "." "." = true
  · rw [if_pos hs, if_pos hs]
    constructor
    · exact List.nodup_nil
    · intro p
      simp
  · rw [if_neg hs, if_neg hs]
    have hign : shouldIgnore pats "." = false := not_ignored_of_not_skipped hs
    have hpkgs := walkList_pkgs_eq pats "." root ⟨[], []⟩ rfl
    have hnodup := walkList_seen_nodup pats "." root ⟨[], []⟩ List.nodup_nil
    have hseen := fun d => walkList_seen_mem pats d "." root ⟨[], []⟩
    have hcoll := fun d => collectList_mem_iff pats d "." root hwf goodPath_root hign
    constructor
    · rw [hpkgs]
      exact hnodup.map (fun _ _ => pkgFmt_injective)
    · intro p
      rw [hpkgs, List.mem_map]
      constructor
      · rintro ⟨d, hd, rfl⟩
        refine ⟨d, rfl, ?_⟩
        rcases (hseen d).mp hd with h0 | hc
        · exact absurd h0 (List.not_mem_nil d)
        · rcases (hcoll d).mp hc with ⟨hgo, rfl⟩ | hmem
          · exact List.mem_append.mpr (Or.inl (by simp [hgo]))
          · exact List.mem_append.mpr (Or.inr hmem)
      · rintro ⟨d, rfl, hd⟩
        refine ⟨d, ?_, rfl⟩
        apply (hseen d).mpr
        right
        apply (hcoll d).mpr
        rcases List.mem_append.mp hd with h1 | h2
        · left
          by_cases hgo : hasGoFileName root = true
          · rw [if_pos hgo] at h1
            exact ⟨hgo, List.mem_singleton.mp h1⟩
          · rw [if_neg hgo] at h1
            exact absurd h1 (List.not_mem_nil d)
        · exact Or.inr h2

/-- A small concrete tree for the C3 witness: a root package, a
subdirectory package, a non-Go directory, and skipped `vendor` and
hidden directories. -/
def treeEx : List Entry :=
  [Entry.file "main.go",
   Entry.dir "sub" [Entry.file "a.go", Entry.file "README.md"],
   Entry.dir "docs" [Entry.file "note.txt"],
   Entry.dir "vendor" [Entry.file "v.go"],
   Entry.dir ".git" [Entry.file "x.go"]]

/-- Witness for C3 at a concrete tree. -/
theorem findGoPackages_correct_witness :
    wfList treeEx = true ∧
    ((findGoPackages ["generated"] treeEx).Nodup ∧
     (∀ p, p ∈ findGoPackages ["generated"] treeEx ↔
       ∃ d, p = pkgFmt d ∧ d ∈ goPkgDirs ["generated"] treeEx)) :=
  ⟨by simp [treeEx, wfList, goodName],
   findGoPackages_correct ["generated"] treeEx (by simp [treeEx, wfList, goodName])⟩

end Gotest
